import Mathlib

/-
Verification of the protobuf codec helpers of gcloud-python's datastore module
(`gcloud/datastore/helpers.py`).

The embedding models Python values and protobuf messages as Lean data:

* a protobuf `Value` message (`WireValue`) has one optional field per scalar
  tag, an optional sub-message per composite tag, a repeated `list_value`
  field (no presence bit: an empty repeated field is indistinguishable from
  an absent one, exactly as in proto2) and the `indexed` flag whose proto2
  default is `true`;
* Python `datetime.datetime` values are modelled by their wall-clock reading
  in integer microseconds together with an optional fixed UTC offset in
  microseconds (`pytz.utc` is offset `0`; a naive datetime carries `none`);
* Python byte strings are lists of byte values, Python text strings are
  `String`, Python floats are `Float` (the codec only stores and retrieves
  them, it never computes with them);
* Python exceptions raised by the helpers are modelled with `Except` over
  `DsError`.

Functions keep the names of the Python functions they embed.  Code of the
repository that `helpers.py` calls but that is outside the file (the `Key`
constructor, `Key.to_protobuf`, and the connection-layer entity encoder) is
modelled from the spec; each such definition carries a doc comment starting
with `Modelled from the spec:`.
-/

set_option maxHeartbeats 1000000

/-- Errors raised by the helpers: the `ValueError` for inconsistent `indexed`
flags in a list value, the range error raised by protobuf's
`Int64ValueChecker.CheckValue`, and the `ValueError` for a Python value with
no protobuf mapping (this is also what `_pb_attr_value(None)` raises, since
`NoneType` matches no `isinstance` branch). -/
inductive DsError where
  | inconsistentIndexing
  | integerOverflow
  | unknownType
deriving DecidableEq, Repr

/-- The identifier of one key path segment: a numeric id or a string name. -/
inductive KeyId where
  | intId (i : Int)
  | strName (n : String)
deriving DecidableEq, Repr

/-- One `(kind, identifier)` segment of a key path; the identifier is absent
for an incomplete segment. -/
structure KeySegment where
  kind : String
  identifier : Option KeyId
deriving DecidableEq, Repr

/-- The in-memory `gcloud.datastore.key.Key`: an ordered path of segments plus
the optional namespace and dataset id of its partition. -/
structure PyKey where
  path : List KeySegment
  namespace_ : Option String
  dataset_id : Option String
deriving DecidableEq, Repr

/-- A Python `datetime.datetime`: the wall-clock reading flattened to integer
microseconds (seconds since epoch of the wall-clock fields times `10 ^ 6`
plus the `microsecond` attribute) and the fixed UTC offset of its `tzinfo`
in microseconds, `none` when the datetime is naive.  `pytz.utc` is offset
`0`. -/
structure PyDatetime where
  wallMicros : Int
  utcOffsetMicros : Option Int
deriving DecidableEq, Repr

/-- The `PartitionId` protobuf: both fields are `optional` with presence. -/
structure PartitionId where
  dataset_id : Option String
  namespace_ : Option String
deriving DecidableEq, Repr

/-- One `Key.PathElement` protobuf: `kind` is required, `id` and `name` are
`optional` with presence. -/
structure WirePathElement where
  kind : String
  id : Option Int
  name : Option String
deriving DecidableEq, Repr

/-- The `Key` protobuf: a partition descriptor and repeated path elements. -/
structure WireKey where
  partition_id : PartitionId
  path_element : List WirePathElement
deriving DecidableEq, Repr

/-- A `Key` protobuf with no field set (the value read from an unset
sub-message field in proto2). -/
def emptyWireKey : WireKey := { partition_id := { dataset_id := none, namespace_ := none }, path_element := [] }

/-
`_dataset_ids_equal` works on Python strings; we embed the strings as lists
of characters so that `s.startswith('s~')` becomes a head-pattern test and
`s[2:]` becomes `List.drop 2`.
-/

/-- `l.startswith(xy)` for a two-character needle `x, y`. -/
def startsWith2 (l : List Char) (x y : Char) : Bool :=
  match l with
  | a :: b :: _ => a = x && b = y
  | _ => false

/-- Embeds `gcloud.datastore.helpers._dataset_ids_equal`. -/
def _dataset_ids_equal (dataset_id1 dataset_id2 : List Char) : Bool :=
  if dataset_id1 = dataset_id2 then true
  else if startsWith2 dataset_id1 's' '~' || startsWith2 dataset_id1 'e' '~' then
    -- If `dataset_id1` is prefixed and not matching, then the only way
    -- they can match is if `dataset_id2` is unprefixed.
    dataset_id1.drop 2 = dataset_id2
  else if startsWith2 dataset_id2 's' '~' || startsWith2 dataset_id2 'e' '~' then
    -- Here `dataset_id1` is unprefixed and `dataset_id2` is prefixed.
    dataset_id1 = dataset_id2.drop 2
  else false

/-- An identifier carries no allowed prefix (it is "bare" in the spec's
terminology). -/
def bareId (l : List Char) : Bool :=
  !(startsWith2 l 's' '~' || startsWith2 l 'e' '~')

/-- The equivalence relation the claim describes, written from the spec's
words: the two identifiers are textually equal, or one of them is bare and
the other is that bare string with one of the two allowed two-character
prefixes prepended. -/
def claimedIdsEqual (a b : List Char) : Bool :=
  a = b
    || (bareId a && (b = 's' :: '~' :: a || b = 'e' :: '~' :: a))
    || (bareId b && (a = 's' :: '~' :: b || a = 'e' :: '~' :: b))

/-- A well-formed dataset identifier: bare, or a single allowed prefix over a
bare remainder. -/
def wellFormedId (l : List Char) : Bool :=
  bareId l || bareId (l.drop 2)

/-- An in-memory Python property value handled by the codec.  A nested entity
is carried inline as its key, its ordered property mapping and its
`exclude_from_indexes` set (Python's `Entity` is a `dict` subclass, so the
property names of a real entity are distinct). -/
inductive PyVal where
  | vnull
  | vbool (b : Bool)
  | vint (i : Int)
  | vdouble (d : Float)
  | vtimestamp (t : PyDatetime)
  | vstring (s : String)
  | vblob (b : List Nat)
  | vkey (k : PyKey)
  | ventity (key : Option PyKey) (props : List (String × PyVal)) (exclude : List String)
  | vlist (xs : List PyVal)

/-- Whether a value is a Python `list` (the `isinstance(value, list)` test). -/
def PyVal.isList : PyVal → Bool
  | .vlist _ => true
  | _ => false

/-- The in-memory `gcloud.datastore.entity.Entity` as the decoder builds it:
its key, its property mapping in wire iteration order, and the
`exclude_from_indexes` names in the order they were appended. -/
structure PyEntity where
  key : Option PyKey
  props : List (String × PyVal)
  exclude : List String

mutual

/-- The `Value`, `Entity` and `Property` protobufs of the datastore v1 API.
`Value` has one `optional` field per tag, the repeated `list_value` field
(which, as a proto2 repeated field, has no presence: empty and absent are the
same message), and the `indexed` flag, an `optional bool` with default
`true`.  An `Entity` protobuf holds its (possibly unset, hence defaulted)
`key` sub-message and repeated `property` messages, each a name together
with a `Value`. -/
inductive WireValue where
  | mk (timestamp_microseconds_value : Option Int)
      (key_value : Option WireKey)
      (boolean_value : Option Bool)
      (double_value : Option Float)
      (integer_value : Option Int)
      (string_value : Option String)
      (blob_value : Option (List Nat))
      (entity_value : Option WireEntity)
      (list_value : List WireValue)
      (indexed : Bool)

/-- The `Entity` protobuf; see `WireValue`. -/
inductive WireEntity where
  | mk (key : WireKey) (property : List WireProperty)

/-- The `Property` protobuf; see `WireValue`. -/
inductive WireProperty where
  | mk (name : String) (value : WireValue)

end

/-- The repeated `list_value` field of a `Value` protobuf. -/
def WireValue.list_value : WireValue → List WireValue
  | .mk _ _ _ _ _ _ _ _ l _ => l

/-- The `indexed` flag of a `Value` protobuf (proto2 default `true`). -/
def WireValue.indexed : WireValue → Bool
  | .mk _ _ _ _ _ _ _ _ _ ix => ix

/-- The `entity_value` field of a `Value` protobuf. -/
def WireValue.entity_value : WireValue → Option WireEntity
  | .mk _ _ _ _ _ _ _ e _ _ => e

/-- The `key` sub-message of an `Entity` protobuf (defaulted when unset). -/
def WireEntity.key : WireEntity → WireKey
  | .mk k _ => k

/-- The repeated `property` field of an `Entity` protobuf. -/
def WireEntity.property : WireEntity → List WireProperty
  | .mk _ ps => ps

/-- The `name` field of a `Property` protobuf. -/
def WireProperty.name : WireProperty → String
  | .mk n _ => n

/-- The `value` field of a `Property` protobuf. -/
def WireProperty.value : WireProperty → WireValue
  | .mk _ v => v

/-- A `Value` protobuf with no field set, as produced by `value_pb.Clear()`
or by a fresh message. -/
def emptyWireValue : WireValue := .mk none none none none none none none none [] true

/-- A fresh `Value` with only `timestamp_microseconds_value` assigned. -/
def wvTimestamp (us : Int) : WireValue := .mk (some us) none none none none none none none [] true

/-- A fresh `Value` with only `key_value` assigned. -/
def wvKey (k : WireKey) : WireValue := .mk none (some k) none none none none none none [] true

/-- A fresh `Value` with only `boolean_value` assigned. -/
def wvBool (b : Bool) : WireValue := .mk none none (some b) none none none none none [] true

/-- A fresh `Value` with only `double_value` assigned. -/
def wvDouble (d : Float) : WireValue := .mk none none none (some d) none none none none [] true

/-- A fresh `Value` with only `integer_value` assigned. -/
def wvInt (i : Int) : WireValue := .mk none none none none (some i) none none none [] true

/-- A fresh `Value` with only `string_value` assigned. -/
def wvString (s : String) : WireValue := .mk none none none none none (some s) none none [] true

/-- A fresh `Value` with only `blob_value` assigned. -/
def wvBlob (b : List Nat) : WireValue := .mk none none none none none none (some b) none [] true

/-- A fresh `Value` with only `entity_value` assigned. -/
def wvEntity (e : WireEntity) : WireValue := .mk none none none none none none none (some e) [] true

/-- A fresh `Value` with only `list_value` populated. -/
def wvList (l : List WireValue) : WireValue := .mk none none none none none none none none l true

/-- The timestamp branch of `_pb_attr_value`: a naive datetime is assumed to
be UTC (`val.replace(tzinfo=pytz.utc)`), an aware one is converted to UTC
(`val.astimezone(pytz.utc)` shifts the wall clock by the offset), and the
result is `int(calendar.timegm(val.timetuple()) * 1e6) + val.microsecond` —
the whole seconds of the UTC wall clock (`timetuple` floors away the
microseconds; Python's floor division matches `Int.ediv` for the positive
divisor) scaled back to microseconds, plus the microsecond field. -/
def datetimeToMicros (dt : PyDatetime) : Int :=
  let utcWall : Int :=
    match dt.utcOffsetMicros with
    | none => dt.wallMicros
    | some off => dt.wallMicros - off
  (utcWall / 1000000) * 1000000 + utcWall % 1000000

/-- The timestamp branch of `_get_value_from_value_pb`:
`datetime.utcfromtimestamp(0) + timedelta(microseconds=µs)` is the naive
wall clock at `µs` microseconds past the epoch, and `.replace(tzinfo=pytz.utc)`
stamps it with offset `0`. -/
def microsToDatetime (us : Int) : PyDatetime := { wallMicros := us, utcOffsetMicros := some 0 }

/-- One positional argument of the flat `path_args` list that
`key_from_protobuf` builds and passes to the `Key` constructor. -/
inductive PathArg where
  | kindArg (k : String)
  | idArg (i : Int)
  | nameArg (n : String)
deriving DecidableEq, Repr

/-- The arguments one path element contributes to `path_args`: its kind,
then its `id` if the field is set, then its `name` if the field is set. -/
def pathArgsOfElement (element : WirePathElement) : List PathArg :=
  [.kindArg element.kind]
    ++ (match element.id with | some i => [.idArg i] | none => [])
    ++ (match element.name with | some n => [.nameArg n] | none => [])

/-- Modelled from the spec: the `Key` constructor (`gcloud/datastore/key.py`,
not under src/) parses the flat `path_args` into the key's path.  Per the
spec's data model and KeyCodec.decode, the path is the ordered sequence of
`(kind, identifier)` segments: each kind argument opens a segment, and the
identifier argument immediately following it (if any) completes it, the
identifier being either absent, a numeric id or a string name. -/
def segmentsOfFlatArgs : List PathArg → List KeySegment
  | [] => []
  | .kindArg k :: .idArg i :: rest => ⟨k, some (.intId i)⟩ :: segmentsOfFlatArgs rest
  | .kindArg k :: .nameArg n :: rest => ⟨k, some (.strName n)⟩ :: segmentsOfFlatArgs rest
  | .kindArg k :: rest => ⟨k, none⟩ :: segmentsOfFlatArgs rest
  | .idArg _ :: rest => segmentsOfFlatArgs rest
  | .nameArg _ :: rest => segmentsOfFlatArgs rest

/-- Embeds `gcloud.datastore.helpers.key_from_protobuf`: collect the flat
`path_args` from the wire path elements, read the optional partition fields
(`None` exactly when the field is absent), and build the `Key`. -/
def key_from_protobuf (pb : WireKey) : PyKey :=
  { path := segmentsOfFlatArgs (pb.path_element.map pathArgsOfElement).flatten,
    namespace_ := pb.partition_id.namespace_,
    dataset_id := pb.partition_id.dataset_id }

/-- Modelled from the spec: `gcloud.datastore.key.Key.to_protobuf` (not under
src/).  Per KeyCodec.encode: write the partition descriptor fields only if
the key carries them; emit one path element per segment in order, setting
the numeric id or the name according to which identifier is present. -/
def key_to_protobuf (key : PyKey) : WireKey :=
  { partition_id := { dataset_id := key.dataset_id, namespace_ := key.namespace_ },
    path_element := key.path.map (fun s =>
      { kind := s.kind,
        id := match s.identifier with | some (.intId i) => some i | _ => none,
        name := match s.identifier with | some (.strName n) => some n | _ => none }) }

/-- Embeds `gcloud.datastore.helpers._prepare_key_for_request`: if the key's
partition carries a dataset id, return a copy with that one field cleared,
else return the input itself. -/
def _prepare_key_for_request (key_pb : WireKey) : WireKey :=
  if key_pb.partition_id.dataset_id.isSome then
    { key_pb with partition_id := { key_pb.partition_id with dataset_id := none } }
  else key_pb

/-- The second component of `_pb_attr_value`'s result: the Python value
coerced for protobuf assignment.  The attribute name returned alongside
determines the variant one-to-one. -/
inductive AttrVal where
  | aTimestamp (us : Int)
  | aKey (k : WireKey)
  | aBool (b : Bool)
  | aDouble (d : Float)
  | aInt (i : Int)
  | aStr (s : String)
  | aBlob (b : List Nat)
  | aEntity (key : Option PyKey) (props : List (String × PyVal)) (exclude : List String)
  | aList (xs : List PyVal)

/-- Embeds `gcloud.datastore.helpers._pb_attr_value`: dispatch on the Python
type of the value (datetime, Key, bool, float, int — which must pass
`Int64ValueChecker.CheckValue`'s signed 64-bit range check — text, bytes,
Entity, list) and return the protobuf attribute name with the coerced value;
any other type (such as `None`) raises `ValueError`. -/
def _pb_attr_value : PyVal → Except DsError (String × AttrVal)
  | .vtimestamp dt => .ok ("timestamp_microseconds_value", .aTimestamp (datetimeToMicros dt))
  | .vkey k => .ok ("key_value", .aKey (key_to_protobuf k))
  | .vbool b => .ok ("boolean_value", .aBool b)
  | .vdouble d => .ok ("double_value", .aDouble d)
  | .vint i =>
      if -(2 ^ 63) ≤ i ∧ i ≤ 2 ^ 63 - 1 then .ok ("integer_value", .aInt i)
      else .error .integerOverflow
  | .vstring s => .ok ("string_value", .aStr s)
  | .vblob b => .ok ("blob_value", .aBlob b)
  | .ventity k ps ex => .ok ("entity_value", .aEntity k ps ex)
  | .vlist xs => .ok ("list_value", .aList xs)
  | .vnull => .error .unknownType

/-- The `setattr(value_pb, attr, val)` branch of `_set_protobuf_value` on a
fresh `Value`: assign the scalar attribute named by `_pb_attr_value` (the
attribute name determines the `AttrVal` variant, so the dispatch can match
on the variant).  The composite attributes are handled by the dedicated
branches of `_set_protobuf_value`, never here. -/
def setScalarAttr : AttrVal → WireValue
  | .aTimestamp us => wvTimestamp us
  | .aBool b => wvBool b
  | .aDouble d => wvDouble d
  | .aInt i => wvInt i
  | .aStr s => wvString s
  | .aBlob b => wvBlob b
  | _ => emptyWireValue

mutual

/-- Embeds `gcloud.datastore.helpers._set_protobuf_value` acting on a fresh
`Value` protobuf (every call site in the module passes one): `None` clears
the message; otherwise dispatch on the attribute chosen by `_pb_attr_value`.
For `key_value` the branch copies the key protobuf returned by
`_pb_attr_value` (which is `val.to_protobuf()`); for `entity_value` it
copies the entity's key if the entity has one and recursively encodes each
property of its mapping, never touching the `indexed` flags; for
`list_value` it recursively encodes each item into a fresh element; scalars
are assigned with `setattr`. -/
def _set_protobuf_value : PyVal → Except DsError WireValue
  | .vnull => .ok emptyWireValue
  | .vkey k => .ok (wvKey (key_to_protobuf k))
  | .ventity key props _ex => do
      let wprops ← setEntityProps props
      .ok (wvEntity (.mk (match key with | some k => key_to_protobuf k | none => emptyWireKey) wprops))
  | .vlist xs => do
      let ws ← setListItems xs
      .ok (wvList ws)
  | v => do
      let pair ← _pb_attr_value v
      .ok (setScalarAttr pair.2)

/-- The property loop of `_set_protobuf_value`'s entity branch: for each
`(name, value)` of `val.items()`, add a property with that name and encode
the value into its fresh `Value`. -/
def setEntityProps : List (String × PyVal) → Except DsError (List WireProperty)
  | [] => .ok []
  | (n, v) :: rest => do
      let w ← _set_protobuf_value v
      let ws ← setEntityProps rest
      .ok (.mk n w :: ws)

/-- The item loop of `_set_protobuf_value`'s list branch: encode each item
into a fresh element appended to `list_value`. -/
def setListItems : List PyVal → Except DsError (List WireValue)
  | [] => .ok []
  | x :: rest => do
      let w ← _set_protobuf_value x
      let ws ← setListItems rest
      .ok (w :: ws)

end

/-- The indexed-status bookkeeping of `entity_from_protobuf`'s property loop:
if the decoded value is a Python list, collect the set of `indexed` flags of
the wire list elements (`List.dedup` of the flag list models the Python
`set`: it is a singleton `[f]` exactly when the flags are non-empty and all
equal to `f`), raise `ValueError` unless that set has exactly one element,
and record the property name when the one flag is false; for any other
decoded value record the name when the wire value's own `indexed` flag is
false. -/
def indexedExclusionFor (name : String) (value : WireValue) (v : PyVal) :
    Except DsError (Option String) :=
  match v with
  | .vlist _ =>
      match (value.list_value.map WireValue.indexed).dedup with
      | [f] => .ok (if f then none else some name)
      | _ => .error .inconsistentIndexing
  | _ => .ok (if value.indexed then none else some name)

mutual

/-- Embeds `gcloud.datastore.helpers._get_value_from_value_pb`: test the
tagged fields in source order (`timestamp_microseconds_value`, `key_value`,
`boolean_value`, `double_value`, `integer_value`, `string_value`,
`blob_value`, `entity_value` and then the truthiness of `list_value`) and
return the first populated one, decoded; with nothing populated the result
is `None`. -/
def _get_value_from_value_pb : WireValue → Except DsError PyVal
  | .mk (some us) _ _ _ _ _ _ _ _ _ => .ok (.vtimestamp (microsToDatetime us))
  | .mk none (some kpb) _ _ _ _ _ _ _ _ => .ok (.vkey (key_from_protobuf kpb))
  | .mk none none (some b) _ _ _ _ _ _ _ => .ok (.vbool b)
  | .mk none none none (some d) _ _ _ _ _ _ => .ok (.vdouble d)
  | .mk none none none none (some i) _ _ _ _ _ => .ok (.vint i)
  | .mk none none none none none (some s) _ _ _ _ => .ok (.vstring s)
  | .mk none none none none none none (some bl) _ _ _ => .ok (.vblob bl)
  | .mk none none none none none none none (some epb) _ _ => do
      let e ← entity_from_protobuf epb
      .ok (.ventity e.key e.props e.exclude)
  | .mk none none none none none none none none (x :: xs) _ => do
      let vs ← decodeListValues (x :: xs)
      .ok (.vlist vs)
  | .mk none none none none none none none none [] _ => .ok .vnull

/-- The element loop of `_get_value_from_value_pb`'s list branch. -/
def decodeListValues : List WireValue → Except DsError (List PyVal)
  | [] => .ok []
  | x :: rest => do
      let v ← _get_value_from_value_pb x
      let vs ← decodeListValues rest
      .ok (v :: vs)

/-- Embeds `gcloud.datastore.helpers.entity_from_protobuf`: decode the key
from the (possibly defaulted) `key` sub-message, run the property loop, and
build the entity. -/
def entity_from_protobuf : WireEntity → Except DsError PyEntity
  | .mk kpb props => do
      let pe ← processProps props
      .ok ⟨some (key_from_protobuf kpb), pe.1, pe.2⟩

/-- The property loop of `entity_from_protobuf`: decode each property's
value, record it under the property's name, and append the name to
`exclude_from_indexes` when `indexedExclusionFor` says so. -/
def processProps : List WireProperty → Except DsError (List (String × PyVal) × List String)
  | [] => .ok ([], [])
  | .mk name value :: rest => do
      let v ← _get_value_from_value_pb value
      let exop ← indexedExclusionFor name value v
      let pe ← processProps rest
      .ok ((name, v) :: pe.1, (match exop with | some x => x :: pe.2 | none => pe.2))

end

/-- Encoding a value and decoding the wire value it produced. -/
def roundTrip (v : PyVal) : Except DsError PyVal :=
  _set_protobuf_value v >>= _get_value_from_value_pb

mutual

/-- The values for which the round trip can restore the input: integers must
be inside the signed 64-bit range (out-of-range integers do not encode),
lists must be non-empty (an encoded empty list is indistinguishable from an
encoded `None` on the wire) with non-list elements (the wire format does not
nest lists), and nested entities must carry a key (the decoder always
materialises a key), an empty `exclude_from_indexes` set (the value encoder
never writes `indexed` flags, so the decoder always reconstructs an empty
set) and distinct property names (a Python entity is a `dict`). -/
def goodVal : PyVal → Bool
  | .vnull => true
  | .vbool _ => true
  | .vint i => decide (-(2 ^ 63) ≤ i ∧ i ≤ 2 ^ 63 - 1)
  | .vdouble _ => true
  | .vtimestamp _ => true
  | .vstring _ => true
  | .vblob _ => true
  | .vkey _ => true
  | .ventity key props ex =>
      key.isSome && ex.isEmpty && decide ((props.map Prod.fst).Nodup) && goodProps props
  | .vlist xs => !xs.isEmpty && goodElems xs

/-- `goodVal` over an entity's property values. -/
def goodProps : List (String × PyVal) → Bool
  | [] => true
  | (_, v) :: rest => goodVal v && goodProps rest

/-- `goodVal` over a list's elements, which must not themselves be lists. -/
def goodElems : List PyVal → Bool
  | [] => true
  | x :: rest => goodVal x && !x.isList && goodElems rest

end

mutual

/-- Rewrites every timestamp in a value to the UTC-zoned datetime holding the
same microsecond instant, which is the form the decoder produces; all other
values are left unchanged.  `decode ∘ encode` equals `tsNormalize` on good
values: this is the precise sense in which the round trip compares
timestamps "at microsecond granularity". -/
def tsNormalize : PyVal → PyVal
  | .vtimestamp dt => .vtimestamp (microsToDatetime (datetimeToMicros dt))
  | .ventity key props ex => .ventity key (tsNormalizeProps props) ex
  | .vlist xs => .vlist (tsNormalizeList xs)
  | v => v

/-- `tsNormalize` over an entity's property values. -/
def tsNormalizeProps : List (String × PyVal) → List (String × PyVal)
  | [] => []
  | (n, v) :: rest => (n, tsNormalize v) :: tsNormalizeProps rest

/-- `tsNormalize` over a list's elements. -/
def tsNormalizeList : List PyVal → List PyVal
  | [] => []
  | x :: rest => tsNormalize x :: tsNormalizeList rest

end

/-- The segment the claim says each wire path element decodes to: the
element's kind, with the numeric id if present, else the name if present,
else no identifier. -/
def segOfElementSpec (e : WirePathElement) : KeySegment :=
  { kind := e.kind,
    identifier :=
      match e.id with
      | some i => some (.intId i)
      | none => match e.name with | some n => some (.strName n) | none => none }

/-- No tagged field of the wire value is populated (`list_value`, being a
proto2 repeated field, is "unpopulated" exactly when it is empty). -/
def noFieldSet : WireValue → Bool
  | .mk none none none none none none none none [] _ => true
  | _ => false

/-- The wire value with the `indexed` flag replaced. -/
def WireValue.withIndexed : WireValue → Bool → WireValue
  | .mk a b c d e f g h l _, ix => .mk a b c d e f g h l ix

/-- Modelled from the spec: how the entity encoder marks an excluded
property's wire value — `indexed = false` uniformly on every list element
when the Python value is a list, else `indexed = false` on the value
itself. -/
def markUnindexed (w : WireValue) (v : PyVal) : WireValue :=
  match v with
  | .vlist _ =>
      match w with
      | .mk a b c d e f g h l ix => .mk a b c d e f g h (l.map (fun x => x.withIndexed false)) ix
  | _ => w.withIndexed false

/-- Modelled from the spec: the property loop of the top-level entity encoder
(EntityCodec.encode; in the original repository it lives in the connection
layer, outside this module and not under src/).  Each property value is
encoded via `_set_protobuf_value`; the wire `indexed` flag is forced to
false (on the value, or uniformly on every list element) exactly when the
property name is in `exclude_from_indexes`, and left at its wire default
`true` otherwise. -/
def encodeIndexedProps : List (String × PyVal) → List String → Except DsError (List WireProperty)
  | [], _ => .ok []
  | (n, v) :: rest, excl => do
      let w ← _set_protobuf_value v
      let w' := if n ∈ excl then markUnindexed w v else w
      let ws ← encodeIndexedProps rest excl
      .ok (.mk n w' :: ws)

/-- Modelled from the spec: the top-level entity encoder (EntityCodec.encode,
not under src/): encode and attach the key if the entity has one, and run
the property loop. -/
def entity_to_protobuf (e : PyEntity) : Except DsError WireEntity := do
  let wprops ← encodeIndexedProps e.props e.exclude
  .ok (.mk (match e.key with | some k => key_to_protobuf k | none => emptyWireKey) wprops)

/-- A wire boolean value with an explicit `indexed` flag. -/
def wvBoolIdx (b ix : Bool) : WireValue := .mk none none (some b) none none none none none [] ix

/-- A wire entity with one list-valued property whose two elements both carry
`indexed = true`. -/
def entListTT : WireEntity := .mk emptyWireKey [.mk "p" (wvList [wvBoolIdx true true, wvBoolIdx true true])]

/-- A wire entity with one list-valued property whose two elements both carry
`indexed = false`. -/
def entListFF : WireEntity := .mk emptyWireKey [.mk "p" (wvList [wvBoolIdx true false, wvBoolIdx false false])]

/-- A wire entity with one list-valued property whose elements disagree on
`indexed`. -/
def entListTF : WireEntity := .mk emptyWireKey [.mk "p" (wvList [wvBoolIdx true true, wvBoolIdx false false])]

/-- A list-valued wire property whose element flags agree (both `true`). -/
def propAgree : WireProperty := .mk "agree" (wvList [wvBoolIdx true true, wvBoolIdx true true])

/-- A list-valued wire property whose element flags disagree. -/
def propDisagree : WireProperty := .mk "disagree" (wvList [wvBoolIdx true true, wvBoolIdx false false])

/-- A wire entity holding both an agreeing and a disagreeing list-valued
property. -/
def entMixed : WireEntity := .mk emptyWireKey [propAgree, propDisagree]

/-- A concrete in-memory key. -/
def examplePyKey : PyKey :=
  { path := [⟨"Person", some (.intId 123)⟩, ⟨"Address", some (.strName "home")⟩],
    namespace_ := some "ns",
    dataset_id := some "s~foo" }

/-- A concrete wire key: dataset id `"s~foo"`, namespace `"ns"`, and the path
`("Person", id=123)` then `("Address", name="home")`. -/
def exampleWireKey : WireKey :=
  { partition_id := { dataset_id := some "s~foo", namespace_ := some "ns" },
    path_element := [⟨"Person", some 123, none⟩, ⟨"Address", none, some "home"⟩] }

/-- A concrete wire key without a dataset id. -/
def exampleBareWireKey : WireKey :=
  { partition_id := { dataset_id := none, namespace_ := some "ns" },
    path_element := [⟨"K", none, none⟩] }

/-- A concrete good value exercising entity, integer, timestamp and list
variants for the round-trip witness. -/
def exampleGoodVal : PyVal :=
  .ventity (some examplePyKey)
    [("a", .vint 5), ("t", .vtimestamp ⟨1500000, none⟩), ("l", .vlist [.vbool true, .vnull])]
    []

/-- A concrete entity for the indexed-flag encoding witness: property `"b"`
(a two-element list) is excluded from indexes, property `"a"` is not. -/
def exampleIndexEntity : PyEntity :=
  ⟨some examplePyKey, [("a", .vint 1), ("b", .vlist [.vbool true, .vbool false])], ["b"]⟩

theorem startsWith2_iff (l : List Char) (x y : Char) :
    startsWith2 l x y = true ↔ ∃ rest, l = x :: y :: rest := by
  cases l with
  | nil => simp [startsWith2]
  | cons a t =>
    cases t with
    | nil => simp [startsWith2]
    | cons b r =>
      simp only [startsWith2, Bool.and_eq_true, decide_eq_true_eq]
      constructor
      · rintro ⟨rfl, rfl⟩; exact ⟨r, rfl⟩
      · rintro ⟨rest, h⟩; cases h; exact ⟨rfl, rfl⟩

theorem bareId_false_shape (a : List Char)
    (h : (startsWith2 a 's' '~' || startsWith2 a 'e' '~') = true) :
    ∃ p0 a', a = p0 :: '~' :: a' ∧ (p0 = 's' ∨ p0 = 'e') := by
  rw [Bool.or_eq_true] at h
  rcases h with h | h
  · obtain ⟨r, hr⟩ := (startsWith2_iff _ _ _).1 h
    exact ⟨'s', r, hr, Or.inl rfl⟩
  · obtain ⟨r, hr⟩ := (startsWith2_iff _ _ _).1 h
    exact ⟨'e', r, hr, Or.inr rfl⟩

theorem _dataset_ids_equal_true_iff (a b : List Char) :
    _dataset_ids_equal a b = true ↔
      (a = b
        ∨ ((startsWith2 a 's' '~' || startsWith2 a 'e' '~') = true ∧ a.drop 2 = b)
        ∨ ((startsWith2 a 's' '~' || startsWith2 a 'e' '~') = false
            ∧ (startsWith2 b 's' '~' || startsWith2 b 'e' '~') = true
            ∧ a = b.drop 2)) := by
  simp only [_dataset_ids_equal]
  split_ifs with h1 h2 h3
  · simp [h1]
  · simp [h1, h2]
  · have h2' : (startsWith2 a 's' '~' || startsWith2 a 'e' '~') = false := by
      simpa using h2
    simp [h1, h2', h3]
  · have h2' : (startsWith2 a 's' '~' || startsWith2 a 'e' '~') = false := by
      simpa using h2
    have h3' : (startsWith2 b 's' '~' || startsWith2 b 'e' '~') = false := by
      simpa using h3
    simp [h1, h2', h3']

theorem claimedIdsEqual_true_iff (a b : List Char) :
    claimedIdsEqual a b = true ↔
      (a = b
        ∨ (bareId a = true ∧ (b = 's' :: '~' :: a ∨ b = 'e' :: '~' :: a))
        ∨ (bareId b = true ∧ (a = 's' :: '~' :: b ∨ a = 'e' :: '~' :: b))) := by
  simp [claimedIdsEqual, or_assoc]

/-- C3, corrected.  On well-formed dataset identifiers — each of the two is
either bare or a single allowed two-character prefix (`s~` or `e~`) over a
bare remainder — `_dataset_ids_equal` returns `true` exactly when the two are
textually equal or one of them is bare and the other is that bare string with
one of the two allowed prefixes prepended.  (Without the well-formedness
restriction the code and the claimed relation disagree, see the
counterexample.) -/
theorem _dataset_ids_equal_wf (a b : List Char)
    (ha : wellFormedId a = true) (hb : wellFormedId b = true) :
    _dataset_ids_equal a b = claimedIdsEqual a b := by
  rw [Bool.eq_iff_iff, _dataset_ids_equal_true_iff, claimedIdsEqual_true_iff]
  constructor
  · rintro (rfl | ⟨hpa, hdrop⟩ | ⟨hpa, hpb, hdrop⟩)
    · exact Or.inl rfl
    · obtain ⟨p0, a', rfl, hp0⟩ := bareId_false_shape a hpa
      have hbareb : bareId b = true := by
        have : bareId (p0 :: '~' :: a') = false := by simp [bareId, hpa]
        have hwa : bareId a' = true := by simpa [wellFormedId, this] using ha
        simpa [← hdrop] using hwa
      refine Or.inr (Or.inr ⟨hbareb, ?_⟩)
      simp only [List.drop] at hdrop
      rcases hp0 with rfl | rfl
      · exact Or.inl (by rw [hdrop])
      · exact Or.inr (by rw [hdrop])
    · obtain ⟨q0, b', rfl, hq0⟩ := bareId_false_shape b hpb
      have hbarea : bareId a = true := by simp [bareId, hpa]
      refine Or.inr (Or.inl ⟨hbarea, ?_⟩)
      simp only [List.drop] at hdrop
      rcases hq0 with rfl | rfl
      · exact Or.inl (by rw [hdrop])
      · exact Or.inr (by rw [hdrop])
  · rintro (rfl | ⟨hbarea, hb2 | hb2⟩ | ⟨hbareb, ha2 | ha2⟩)
    · exact Or.inl rfl
    · subst hb2
      have hpa : (startsWith2 a 's' '~' || startsWith2 a 'e' '~') = false := by
        simpa [bareId] using hbarea
      exact Or.inr (Or.inr ⟨hpa, by simp [startsWith2], rfl⟩)
    · subst hb2
      have hpa : (startsWith2 a 's' '~' || startsWith2 a 'e' '~') = false := by
        simpa [bareId] using hbarea
      exact Or.inr (Or.inr ⟨hpa, by simp [startsWith2], rfl⟩)
    · subst ha2
      exact Or.inr (Or.inl ⟨by simp [startsWith2], rfl⟩)
    · subst ha2
      exact Or.inr (Or.inl ⟨by simp [startsWith2], rfl⟩)

/-- C3, counterexample to the claim as stated: `"s~s~foo"` is not bare and is
not textually equal to `"s~foo"`, so the claimed relation is false for the
pair, yet the code strips the first prefix and returns `true`. -/
theorem _dataset_ids_equal_cex :
    _dataset_ids_equal ['s', '~', 's', '~', 'f', 'o', 'o'] ['s', '~', 'f', 'o', 'o'] = true
      ∧ claimedIdsEqual ['s', '~', 's', '~', 'f', 'o', 'o'] ['s', '~', 'f', 'o', 'o'] = false := by
  decide

/-- Witness for `_dataset_ids_equal_wf` at the concrete pair
`("foo", "s~foo")`. -/
theorem _dataset_ids_equal_wf_witness :
    wellFormedId ['f', 'o', 'o'] = true
      ∧ wellFormedId ['s', '~', 'f', 'o', 'o'] = true
      ∧ _dataset_ids_equal ['f', 'o', 'o'] ['s', '~', 'f', 'o', 'o']
          = claimedIdsEqual ['f', 'o', 'o'] ['s', '~', 'f', 'o', 'o']
      ∧ claimedIdsEqual ['f', 'o', 'o'] ['s', '~', 'f', 'o', 'o'] = true :=
  ⟨by decide, by decide, _dataset_ids_equal_wf _ _ (by decide) (by decide), by decide⟩

@[simp] theorem exceptOkBind {ε α β : Type} (a : α) (f : α → Except ε β) :
    (Except.ok a : Except ε α) >>= f = f a := rfl

@[simp] theorem exceptErrorBind {ε α β : Type} (e : ε) (f : α → Except ε β) :
    (Except.error e : Except ε α) >>= f = Except.error e := rfl

theorem exceptBindOkIff {ε α β : Type} (x : Except ε α) (f : α → Except ε β) (b : β) :
    x >>= f = .ok b ↔ ∃ a, x = .ok a ∧ f a = .ok b := by
  cases x <;> simp

theorem exceptBindErrIff {ε α β : Type} (x : Except ε α) (f : α → Except ε β) (e : ε) :
    x >>= f = .error e ↔ (x = .error e ∨ ∃ a, x = .ok a ∧ f a = .error e) := by
  cases x <;> simp

theorem pathArgsOfElement_head (e : WirePathElement) :
    ∃ t, pathArgsOfElement e = .kindArg e.kind :: t := by
  obtain ⟨k, i, n⟩ := e
  cases i <;> cases n <;> exact ⟨_, rfl⟩

theorem segmentsOfFlatArgs_elements (elts : List WirePathElement)
    (h : ∀ e ∈ elts, ¬(e.id.isSome ∧ e.name.isSome)) :
    segmentsOfFlatArgs (elts.map pathArgsOfElement).flatten = elts.map segOfElementSpec := by
  induction elts with
  | nil => simp [segmentsOfFlatArgs]
  | cons e rest ih =>
    have he := h e (List.mem_cons_self _ _)
    have hrest : ∀ x ∈ rest, ¬(x.id.isSome ∧ x.name.isSome) :=
      fun x hx => h x (List.mem_cons_of_mem _ hx)
    obtain ⟨k, eid, ename⟩ := e
    simp only [List.map_cons, List.flatten_cons]
    cases eid with
    | some i =>
      cases ename with
      | some n => simp at he
      | none =>
        have harg : pathArgsOfElement ⟨k, some i, none⟩ = [.kindArg k, .idArg i] := rfl
        rw [harg]
        simp only [List.cons_append, List.nil_append, segmentsOfFlatArgs,
          List.append_eq]
        rw [ih hrest]
        simp [segOfElementSpec]
    | none =>
      cases ename with
      | some n =>
        have harg : pathArgsOfElement ⟨k, none, some n⟩ = [.kindArg k, .nameArg n] := rfl
        rw [harg]
        simp only [List.cons_append, List.nil_append, segmentsOfFlatArgs,
          List.append_eq]
        rw [ih hrest]
        simp [segOfElementSpec]
      | none =>
        have harg : pathArgsOfElement ⟨k, none, none⟩ = [.kindArg k] := rfl
        rw [harg]
        cases rest with
        | nil => simp [segmentsOfFlatArgs, segOfElementSpec]
        | cons e2 rest2 =>
          obtain ⟨t2, ht2⟩ := pathArgsOfElement_head e2
          have hflat : (List.map pathArgsOfElement (e2 :: rest2)).flatten
              = PathArg.kindArg e2.kind :: (t2 ++ (List.map pathArgsOfElement rest2).flatten) := by
            simp [ht2]
          rw [hflat]
          simp only [List.singleton_append]
          rw [show segmentsOfFlatArgs (PathArg.kindArg k :: PathArg.kindArg e2.kind ::
                (t2 ++ (List.map pathArgsOfElement rest2).flatten))
              = KeySegment.mk k none :: segmentsOfFlatArgs (PathArg.kindArg e2.kind ::
                (t2 ++ (List.map pathArgsOfElement rest2).flatten)) from by
            simp [segmentsOfFlatArgs]]
          rw [← List.cons_append, ← ht2, ← List.flatten_cons, ← List.map_cons]
          rw [ih hrest]
          simp [segOfElementSpec]

theorem key_roundtrip (k : PyKey) : key_from_protobuf (key_to_protobuf k) = k := by
  obtain ⟨path, ns, ds⟩ := k
  have hcond : ∀ e ∈ path.map (fun s =>
      ({ kind := s.kind,
         id := match s.identifier with | some (.intId i) => some i | _ => none,
         name := match s.identifier with | some (.strName n) => some n | _ => none }
        : WirePathElement)), ¬(e.id.isSome ∧ e.name.isSome) := by
    intro e he
    obtain ⟨s, _, rfl⟩ := List.mem_map.1 he
    obtain ⟨sk, sid⟩ := s
    rcases sid with _ | sid
    · simp
    · rcases sid with i | n <;> simp
  simp only [key_from_protobuf, key_to_protobuf]
  rw [segmentsOfFlatArgs_elements _ hcond]
  simp only [List.map_map, PyKey.mk.injEq, and_true]
  have : ∀ s ∈ path, (segOfElementSpec ∘ fun s =>
      ({ kind := s.kind,
         id := match s.identifier with | some (.intId i) => some i | _ => none,
         name := match s.identifier with | some (.strName n) => some n | _ => none }
        : WirePathElement)) s = id s := by
    intro s _
    obtain ⟨sk, sid⟩ := s
    rcases sid with _ | sid
    · simp [segOfElementSpec]
    · rcases sid with i | n <;> simp [segOfElementSpec]
  rw [List.map_congr_left this, List.map_id]

theorem pyValInduction (motive : PyVal → Prop)
    (hnull : motive .vnull)
    (hbool : ∀ b, motive (.vbool b))
    (hint : ∀ i, motive (.vint i))
    (hdouble : ∀ d, motive (.vdouble d))
    (hts : ∀ t, motive (.vtimestamp t))
    (hstr : ∀ s, motive (.vstring s))
    (hblob : ∀ b, motive (.vblob b))
    (hkey : ∀ k, motive (.vkey k))
    (hentity : ∀ key props ex, (∀ p ∈ props, motive p.2) → motive (.ventity key props ex))
    (hlist : ∀ xs, (∀ x ∈ xs, motive x) → motive (.vlist xs)) :
    ∀ v, motive v
  | .vnull => hnull
  | .vbool b => hbool b
  | .vint i => hint i
  | .vdouble d => hdouble d
  | .vtimestamp t => hts t
  | .vstring s => hstr s
  | .vblob b => hblob b
  | .vkey k => hkey k
  | .ventity key props ex =>
      hentity key props ex (fun p hp =>
        pyValInduction motive hnull hbool hint hdouble hts hstr hblob hkey hentity hlist p.2)
  | .vlist xs =>
      hlist xs (fun x hx =>
        pyValInduction motive hnull hbool hint hdouble hts hstr hblob hkey hentity hlist x)
termination_by v => sizeOf v
decreasing_by
  · have h1 := List.sizeOf_lt_of_mem hp
    obtain ⟨a, b⟩ := p
    simp only [Prod.mk.sizeOf_spec] at h1 ⊢
    simp only [PyVal.ventity.sizeOf_spec]
    omega
  · have h1 := List.sizeOf_lt_of_mem hx
    simp only [PyVal.vlist.sizeOf_spec]
    omega

theorem wireValueInduction (motive : WireValue → Prop)
    (h : ∀ ts kv bv dv iv sv blv ev lv ix,
        (∀ epb, ev = some epb → ∀ p ∈ WireEntity.property epb, motive (WireProperty.value p)) →
        (∀ x ∈ lv, motive x) →
        motive (.mk ts kv bv dv iv sv blv ev lv ix)) :
    ∀ w, motive w
  | .mk ts kv bv dv iv sv blv ev lv ix =>
      h ts kv bv dv iv sv blv ev lv ix
        (fun epb hev p hp => wireValueInduction motive h (WireProperty.value p))
        (fun x hx => wireValueInduction motive h x)
termination_by w => sizeOf w
decreasing_by
  · subst hev
    obtain ⟨ek, eprops⟩ := epb
    have h1 := List.sizeOf_lt_of_mem hp
    obtain ⟨pn, pv⟩ := p
    simp only [WireEntity.property] at h1
    simp only [WireProperty.value]
    simp only [WireProperty.mk.sizeOf_spec] at h1
    simp only [WireValue.mk.sizeOf_spec, Option.some.sizeOf_spec, WireEntity.mk.sizeOf_spec]
    omega
  · have h1 := List.sizeOf_lt_of_mem hx
    simp only [WireValue.mk.sizeOf_spec]
    omega

theorem indexedExclusionFor_err (n : String) (w : WireValue) (v : PyVal) (e : DsError)
    (h : indexedExclusionFor n w v = .error e) : e = .inconsistentIndexing := by
  cases v
  case vlist xs =>
    simp only [indexedExclusionFor] at h
    split at h
    · simp at h
    · injection h with h
      exact h.symm
  all_goals
    simp only [indexedExclusionFor] at h
    split at h <;> simp at h

theorem processProps_err (props : List WireProperty)
    (hIH : ∀ p ∈ props, ∀ e,
      _get_value_from_value_pb (WireProperty.value p) = .error e → e = .inconsistentIndexing)
    (e : DsError) (h : processProps props = .error e) : e = .inconsistentIndexing := by
  induction props with
  | nil => simp [processProps] at h
  | cons p rest ih =>
    obtain ⟨pn, pv⟩ := p
    simp only [processProps] at h
    rcases (exceptBindErrIff _ _ _).1 h with h1 | ⟨v, _, h2⟩
    · exact hIH ⟨pn, pv⟩ (List.mem_cons_self _ _) e h1
    · rcases (exceptBindErrIff _ _ _).1 h2 with h3 | ⟨exop, _, h4⟩
      · exact indexedExclusionFor_err _ _ _ _ h3
      · rcases (exceptBindErrIff _ _ _).1 h4 with h5 | ⟨pe, _, h6⟩
        · exact ih (fun q hq => hIH q (List.mem_cons_of_mem _ hq)) h5
        · simp at h6

theorem decodeListValues_err (l : List WireValue)
    (hIH : ∀ x ∈ l, ∀ e, _get_value_from_value_pb x = .error e → e = .inconsistentIndexing)
    (e : DsError) (h : decodeListValues l = .error e) : e = .inconsistentIndexing := by
  induction l with
  | nil => simp [decodeListValues] at h
  | cons x rest ih =>
    simp only [decodeListValues] at h
    rcases (exceptBindErrIff _ _ _).1 h with h1 | ⟨v, _, h2⟩
    · exact hIH x (List.mem_cons_self _ _) e h1
    · rcases (exceptBindErrIff _ _ _).1 h2 with h3 | ⟨vs, _, h4⟩
      · exact ih (fun y hy => hIH y (List.mem_cons_of_mem _ hy)) h3
      · simp at h4

theorem decode_err (w : WireValue) :
    ∀ e, _get_value_from_value_pb w = .error e → e = .inconsistentIndexing := by
  induction w using wireValueInduction with
  | h ts kv bv dv iv sv blv ev lv ix hent hlst =>
    intro e h
    cases ts with
    | some us => simp [_get_value_from_value_pb] at h
    | none =>
    cases kv with
    | some kpb => simp [_get_value_from_value_pb] at h
    | none =>
    cases bv with
    | some b => simp [_get_value_from_value_pb] at h
    | none =>
    cases dv with
    | some d => simp [_get_value_from_value_pb] at h
    | none =>
    cases iv with
    | some i => simp [_get_value_from_value_pb] at h
    | none =>
    cases sv with
    | some s => simp [_get_value_from_value_pb] at h
    | none =>
    cases blv with
    | some bl => simp [_get_value_from_value_pb] at h
    | none =>
    cases ev with
    | some epb =>
      simp only [_get_value_from_value_pb] at h
      rcases (exceptBindErrIff _ _ _).1 h with h1 | ⟨pe, _, h2⟩
      · obtain ⟨ek, eprops⟩ := epb
        simp only [entity_from_protobuf] at h1
        rcases (exceptBindErrIff _ _ _).1 h1 with h3 | ⟨pp, _, h4⟩
        · exact processProps_err _ (fun p hp => hent ⟨ek, eprops⟩ rfl p hp) e h3
        · simp at h4
      · simp at h2
    | none =>
    cases lv with
    | nil => simp [_get_value_from_value_pb] at h
    | cons x xs =>
      simp only [_get_value_from_value_pb] at h
      rcases (exceptBindErrIff _ _ _).1 h with h1 | ⟨vs, _, h2⟩
      · exact decodeListValues_err _ (fun y hy => hlst y hy) e h1
      · simp at h2

theorem entity_from_protobuf_err (epb : WireEntity) (e : DsError)
    (h : entity_from_protobuf epb = .error e) : e = .inconsistentIndexing := by
  obtain ⟨ek, eprops⟩ := epb
  simp only [entity_from_protobuf] at h
  rcases (exceptBindErrIff _ _ _).1 h with h1 | ⟨pp, _, h2⟩
  · exact processProps_err _ (fun p hp e' he' => decode_err _ e' he') e h1
  · simp at h2

theorem setScalarAttr_indexed (a : AttrVal) : (setScalarAttr a).indexed = true := by
  cases a <;> rfl

theorem set_protobuf_value_indexed (v : PyVal) (w : WireValue)
    (h : _set_protobuf_value v = .ok w) : w.indexed = true := by
  cases v
  case vnull =>
    simp only [_set_protobuf_value] at h
    injection h with h
    subst h
    rfl
  case vkey k =>
    simp only [_set_protobuf_value] at h
    injection h with h
    subst h
    rfl
  case ventity key props ex =>
    simp only [_set_protobuf_value] at h
    rcases (exceptBindOkIff _ _ _).1 h with ⟨ws, _, h2⟩
    injection h2 with h2
    subst h2
    rfl
  case vlist xs =>
    simp only [_set_protobuf_value] at h
    rcases (exceptBindOkIff _ _ _).1 h with ⟨ws, _, h2⟩
    injection h2 with h2
    subst h2
    rfl
  all_goals
    simp only [_set_protobuf_value] at h
    rcases (exceptBindOkIff _ _ _).1 h with ⟨pair, _, h2⟩
    injection h2 with h2
    subst h2
    apply setScalarAttr_indexed

theorem setListItems_indexed (xs : List PyVal) (ws : List WireValue)
    (h : setListItems xs = .ok ws) : ∀ x ∈ ws, x.indexed = true := by
  induction xs generalizing ws with
  | nil =>
    simp only [setListItems] at h
    injection h with h
    subst h
    simp
  | cons x rest ih =>
    simp only [setListItems] at h
    rcases (exceptBindOkIff _ _ _).1 h with ⟨w, hw, h2⟩
    rcases (exceptBindOkIff _ _ _).1 h2 with ⟨ws', hws', h3⟩
    injection h3 with h3
    subst h3
    intro y hy
    rcases List.mem_cons.1 hy with rfl | hy'
    · exact set_protobuf_value_indexed _ _ hw
    · exact ih _ hws' y hy'

theorem setListItems_length (xs : List PyVal) (ws : List WireValue)
    (h : setListItems xs = .ok ws) : ws.length = xs.length := by
  induction xs generalizing ws with
  | nil =>
    simp only [setListItems] at h
    injection h with h
    subst h
    rfl
  | cons x rest ih =>
    simp only [setListItems] at h
    rcases (exceptBindOkIff _ _ _).1 h with ⟨w, _, h2⟩
    rcases (exceptBindOkIff _ _ _).1 h2 with ⟨ws', hws', h3⟩
    injection h3 with h3
    subst h3
    simp [ih _ hws']

theorem dedup_all_eq {l : List Bool} {f : Bool} (hne : l ≠ []) (hall : ∀ x ∈ l, x = f) :
    l.dedup = [f] := by
  induction l with
  | nil => exact absurd rfl hne
  | cons a rest ih =>
    have ha : a = f := hall a (List.mem_cons_self _ _)
    subst ha
    cases rest with
    | nil => rw [List.dedup_cons_of_not_mem (by simp), List.dedup_nil]
    | cons b rest2 =>
      have hrest : ∀ x ∈ b :: rest2, x = a := fun x hx => hall x (List.mem_cons_of_mem _ hx)
      have hmem : a ∈ b :: rest2 := by
        have hb : b = a := hrest b (List.mem_cons_self _ _)
        rw [← hb]
        exact List.mem_cons_self _ _
      rw [List.dedup_cons_of_mem hmem]
      exact ih (by simp) hrest

theorem indexedExclusionFor_encoded (n : String) (v : PyVal) (w : WireValue)
    (hgood : goodVal v = true) (hw : _set_protobuf_value v = .ok w) :
    indexedExclusionFor n w (tsNormalize v) = .ok none := by
  have hidx := set_protobuf_value_indexed _ _ hw
  cases v
  case vlist xs =>
    simp only [_set_protobuf_value] at hw
    rcases (exceptBindOkIff _ _ _).1 hw with ⟨ws, hws, h2⟩
    injection h2 with h2
    subst h2
    simp only [goodVal, Bool.and_eq_true] at hgood
    have hxs : xs ≠ [] := by
      intro hnil
      subst hnil
      simp at hgood
    have hne : ws ≠ [] := by
      intro hnil
      have hlen := setListItems_length _ _ hws
      rw [hnil] at hlen
      exact hxs (List.length_eq_zero.1 hlen.symm)
    have hall := setListItems_indexed _ _ hws
    have hflags : (((wvList ws).list_value).map WireValue.indexed).dedup = [true] := by
      apply dedup_all_eq
      · simp [wvList, WireValue.list_value, hne]
      · intro x hx
        obtain ⟨y, hy, rfl⟩ := List.mem_map.1 hx
        exact hall y hy
    simp only [tsNormalize, indexedExclusionFor, hflags]
    simp
  all_goals simp [tsNormalize, indexedExclusionFor, hidx]

theorem processProps_of_encoded (props : List (String × PyVal))
    (hIH : ∀ p ∈ props, goodVal p.2 = true → roundTrip p.2 = .ok (tsNormalize p.2))
    (hg : goodProps props = true) :
    ∃ wprops, setEntityProps props = .ok wprops
      ∧ processProps wprops = .ok (tsNormalizeProps props, []) := by
  induction props with
  | nil =>
    exact ⟨[], by simp [setEntityProps], by simp [processProps, tsNormalizeProps]⟩
  | cons p rest ih =>
    obtain ⟨n, v⟩ := p
    simp only [goodProps, Bool.and_eq_true] at hg
    have hv := hIH ⟨n, v⟩ (List.mem_cons_self _ _) hg.1
    simp only [roundTrip] at hv
    rcases (exceptBindOkIff _ _ _).1 hv with ⟨w, hw, hdec⟩
    obtain ⟨wrest, henc, hproc⟩ := ih (fun q hq hgq => hIH q (List.mem_cons_of_mem _ hq) hgq) hg.2
    have hex := indexedExclusionFor_encoded n v w hg.1 hw
    refine ⟨.mk n w :: wrest, ?_, ?_⟩
    · simp [setEntityProps, hw, henc]
    · simp [processProps, hdec, hex, hproc, tsNormalizeProps]

theorem decodeListValues_of_encoded (xs : List PyVal)
    (hIH : ∀ x ∈ xs, goodVal x = true → roundTrip x = .ok (tsNormalize x))
    (hg : goodElems xs = true) :
    ∃ ws, setListItems xs = .ok ws ∧ ws.length = xs.length
      ∧ decodeListValues ws = .ok (tsNormalizeList xs) := by
  induction xs with
  | nil =>
    exact ⟨[], by simp [setListItems], by simp, by simp [decodeListValues, tsNormalizeList]⟩
  | cons x rest ih =>
    simp only [goodElems, Bool.and_eq_true] at hg
    obtain ⟨⟨hgx, _⟩, hgr⟩ := hg
    have hx := hIH x (List.mem_cons_self _ _) hgx
    simp only [roundTrip] at hx
    rcases (exceptBindOkIff _ _ _).1 hx with ⟨w, hw, hdec⟩
    obtain ⟨ws', henc, hlen, hdecs⟩ := ih (fun y hy hgy => hIH y (List.mem_cons_of_mem _ hy) hgy) hgr
    refine ⟨w :: ws', by simp [setListItems, hw, henc], by simp [hlen], ?_⟩
    simp [decodeListValues, hdec, hdecs, tsNormalizeList]

theorem roundTrip_good : ∀ v, goodVal v = true → roundTrip v = .ok (tsNormalize v) := by
  intro v
  induction v using pyValInduction with
  | hnull =>
    intro _
    simp [roundTrip, _set_protobuf_value, _get_value_from_value_pb, emptyWireValue, tsNormalize]
  | hbool b =>
    intro _
    simp [roundTrip, _set_protobuf_value, _pb_attr_value, setScalarAttr, wvBool,
      _get_value_from_value_pb, tsNormalize]
  | hint i =>
    intro hg
    have hr : -(2 ^ 63) ≤ i ∧ i ≤ 2 ^ 63 - 1 := by simpa [goodVal] using hg
    have hpow : ((2 : Int) ^ 63) = 9223372036854775808 := by norm_num
    have hr' : (-9223372036854775808 : Int) ≤ i ∧ i ≤ 9223372036854775807 := by
      obtain ⟨hL, hR⟩ := hr
      omega
    simp [roundTrip, _set_protobuf_value, _pb_attr_value, hr', setScalarAttr, wvInt,
      _get_value_from_value_pb, tsNormalize]
  | hdouble d =>
    intro _
    simp [roundTrip, _set_protobuf_value, _pb_attr_value, setScalarAttr, wvDouble,
      _get_value_from_value_pb, tsNormalize]
  | hts t =>
    intro _
    simp [roundTrip, _set_protobuf_value, _pb_attr_value, setScalarAttr, wvTimestamp,
      _get_value_from_value_pb, tsNormalize]
  | hstr s =>
    intro _
    simp [roundTrip, _set_protobuf_value, _pb_attr_value, setScalarAttr, wvString,
      _get_value_from_value_pb, tsNormalize]
  | hblob b =>
    intro _
    simp [roundTrip, _set_protobuf_value, _pb_attr_value, setScalarAttr, wvBlob,
      _get_value_from_value_pb, tsNormalize]
  | hkey k =>
    intro _
    simp [roundTrip, _set_protobuf_value, _get_value_from_value_pb, wvKey, key_roundtrip,
      tsNormalize]
  | hentity key props ex hIH =>
    intro hg
    simp only [goodVal, Bool.and_eq_true] at hg
    obtain ⟨⟨⟨h1, h2⟩, _⟩, h4⟩ := hg
    obtain ⟨k, rfl⟩ := Option.isSome_iff_exists.1 h1
    have hexm : ex = [] := by simpa using h2
    subst hexm
    obtain ⟨wprops, henc, hproc⟩ := processProps_of_encoded props hIH h4
    simp only [roundTrip, _set_protobuf_value, henc, exceptOkBind]
    simp only [wvEntity, _get_value_from_value_pb, entity_from_protobuf, hproc, exceptOkBind]
    simp [key_roundtrip, tsNormalize]
  | hlist xs hIH =>
    intro hg
    simp only [goodVal, Bool.and_eq_true] at hg
    obtain ⟨h1, h2⟩ := hg
    obtain ⟨ws, henc, hlen, hdecs⟩ := decodeListValues_of_encoded xs hIH h2
    have hxs : xs ≠ [] := by simpa using h1
    simp only [roundTrip, _set_protobuf_value, henc, exceptOkBind]
    cases ws with
    | nil => exact absurd (List.length_eq_zero.1 hlen.symm) hxs
    | cons w0 wrest =>
      simp only [wvList, _get_value_from_value_pb, hdecs, exceptOkBind]
      simp [tsNormalize]

theorem indexedExclusionFor_some (n : String) (w : WireValue) (v : PyVal) (x : String)
    (h : indexedExclusionFor n w v = .ok (some x)) : x = n := by
  cases v
  case vlist xs =>
    simp only [indexedExclusionFor] at h
    cases hd : (w.list_value.map WireValue.indexed).dedup with
    | nil => rw [hd] at h; simp at h
    | cons f t =>
      cases t with
      | nil =>
        rw [hd] at h
        cases f <;> simp_all
      | cons g t2 => rw [hd] at h; simp at h
  all_goals
    simp only [indexedExclusionFor] at h
    cases hw : w.indexed <;> rw [hw] at h <;> simp_all

theorem processProps_fails (props : List WireProperty) (p : WireProperty)
    (hp : p ∈ props) (vs : List PyVal)
    (hdec : _get_value_from_value_pb p.value = .ok (.vlist vs))
    (hbad : ((p.value.list_value.map WireValue.indexed).dedup).length ≠ 1) :
    processProps props = .error .inconsistentIndexing := by
  induction props with
  | nil => simp at hp
  | cons q rest ih =>
    rcases List.mem_cons.1 hp with rfl | hp'
    · obtain ⟨pn, pv⟩ := p
      simp only [WireProperty.value, WireProperty.name] at hdec hbad
      simp only [processProps, hdec, exceptOkBind]
      have hex : indexedExclusionFor pn pv (.vlist vs) = .error .inconsistentIndexing := by
        simp only [indexedExclusionFor]
        cases hd : (pv.list_value.map WireValue.indexed).dedup with
        | nil => simp
        | cons f t =>
          cases t with
          | nil => exact absurd (by simp [hd]) hbad
          | cons g t2 => simp
      rw [hex]
      simp
    · obtain ⟨qn, qv⟩ := q
      simp only [processProps]
      cases hq : _get_value_from_value_pb qv with
      | error e =>
        have he := decode_err _ _ hq
        subst he
        simp [hq]
      | ok v =>
        simp only [hq, exceptOkBind]
        cases hex : indexedExclusionFor qn qv v with
        | error e =>
          have he := indexedExclusionFor_err _ _ _ _ hex
          subst he
          simp [hex]
        | ok exop =>
          simp only [hex, exceptOkBind]
          rw [ih hp']
          simp

theorem processProps_exclude_sub (props : List WireProperty)
    (ps : List (String × PyVal)) (excl : List String)
    (h : processProps props = .ok (ps, excl)) :
    ∀ x ∈ excl, x ∈ props.map WireProperty.name := by
  induction props generalizing ps excl with
  | nil =>
    simp only [processProps] at h
    injection h with h
    rw [Prod.mk.injEq] at h
    obtain ⟨h1, h2⟩ := h
    subst h2
    simp
  | cons q rest ih =>
    obtain ⟨qn, qv⟩ := q
    simp only [processProps] at h
    rcases (exceptBindOkIff _ _ _).1 h with ⟨v, hv, h2⟩
    rcases (exceptBindOkIff _ _ _).1 h2 with ⟨exop, hexop, h3⟩
    rcases (exceptBindOkIff _ _ _).1 h3 with ⟨pe, hpe, h4⟩
    obtain ⟨pe1, pe2⟩ := pe
    injection h4 with h4
    rw [Prod.mk.injEq] at h4
    obtain ⟨hps, hexcl⟩ := h4
    intro x hx
    cases exop with
    | none =>
      subst hexcl
      exact List.mem_cons_of_mem _ (ih pe1 pe2 hpe x hx)
    | some nm =>
      have hnm := indexedExclusionFor_some _ _ _ _ hexop
      subst hnm
      subst hexcl
      rcases List.mem_cons.1 hx with rfl | hx'
      · simp [WireProperty.name]
      · exact List.mem_cons_of_mem _ (ih pe1 pe2 hpe x hx')

theorem processProps_ok_spec (props : List WireProperty)
    (ps : List (String × PyVal)) (excl : List String)
    (h : processProps props = .ok (ps, excl))
    (hnodup : (props.map WireProperty.name).Nodup) :
    ∀ p ∈ props, ∀ vs, _get_value_from_value_pb p.value = .ok (.vlist vs) →
      ∃ f, (p.value.list_value.map WireValue.indexed).dedup = [f]
        ∧ (p.name ∈ excl ↔ f = false) := by
  induction props generalizing ps excl with
  | nil => intro p hp; simp at hp
  | cons q rest ih =>
    obtain ⟨qn, qv⟩ := q
    simp only [processProps] at h
    rcases (exceptBindOkIff _ _ _).1 h with ⟨v, hv, h2⟩
    rcases (exceptBindOkIff _ _ _).1 h2 with ⟨exop, hexop, h3⟩
    rcases (exceptBindOkIff _ _ _).1 h3 with ⟨pe, hpe, h4⟩
    obtain ⟨pe1, pe2⟩ := pe
    injection h4 with h4
    rw [Prod.mk.injEq] at h4
    obtain ⟨hps, hexcl⟩ := h4
    simp only [List.map_cons, List.nodup_cons] at hnodup
    obtain ⟨hqn_not, hnodup'⟩ := hnodup
    intro p hp vs hdec
    rcases List.mem_cons.1 hp with rfl | hp'
    · simp only [WireProperty.value, WireProperty.name] at hdec ⊢
      have hveq : v = .vlist vs := by
        rw [hv] at hdec
        injection hdec
      subst hveq
      simp only [indexedExclusionFor] at hexop
      cases hd : ((qv.list_value).map WireValue.indexed).dedup with
      | nil => rw [hd] at hexop; simp at hexop
      | cons f t =>
        cases t with
        | cons g t2 => rw [hd] at hexop; simp at hexop
        | nil =>
          rw [hd] at hexop
          have hexop' : exop = if f = true then none else some qn := by
            injection hexop with hh
            exact hh.symm
          refine ⟨f, rfl, ?_⟩
          subst hexcl
          cases f with
          | true =>
            subst hexop'
            simp only [if_pos rfl]
            have hsub := processProps_exclude_sub rest pe1 pe2 hpe
            constructor
            · intro hmem
              exact absurd (hsub qn hmem) (by simpa [WireProperty.name] using hqn_not)
            · intro hf
              simp at hf
          | false =>
            subst hexop'
            simp
    · obtain ⟨f, hd, hiff⟩ := ih pe1 pe2 hpe hnodup' p hp' vs hdec
      refine ⟨f, hd, ?_⟩
      have hpn : p.name ∈ rest.map WireProperty.name := List.mem_map_of_mem _ hp'
      have hne : ¬p.name = qn := by
        intro hh
        rw [hh] at hpn
        exact hqn_not (by simpa [WireProperty.name] using hpn)
      cases exop with
      | none =>
        subst hexcl
        exact hiff
      | some nm =>
        have hnm := indexedExclusionFor_some _ _ _ _ hexop
        subst hnm
        subst hexcl
        constructor
        · intro hmem
          rcases List.mem_cons.1 hmem with h' | h'
          · exact absurd h' hne
          · exact hiff.1 h'
        · intro hf
          exact List.mem_cons_of_mem _ (hiff.2 hf)

theorem entity_from_protobuf_fails (pb : WireEntity) (p : WireProperty)
    (hp : p ∈ WireEntity.property pb) (vs : List PyVal)
    (hdec : _get_value_from_value_pb (WireProperty.value p) = .ok (.vlist vs))
    (hbad : ((((WireProperty.value p).list_value).map WireValue.indexed).dedup).length ≠ 1) :
    entity_from_protobuf pb = .error .inconsistentIndexing := by
  obtain ⟨kpb, props⟩ := pb
  simp only [WireEntity.property] at hp
  simp only [entity_from_protobuf]
  rw [processProps_fails props p hp vs hdec hbad]
  simp

theorem entity_from_protobuf_ok_spec (pb : WireEntity) (out : PyEntity)
    (h : entity_from_protobuf pb = .ok out)
    (hnodup : ((WireEntity.property pb).map WireProperty.name).Nodup) :
    ∀ p ∈ WireEntity.property pb, ∀ vs,
      _get_value_from_value_pb (WireProperty.value p) = .ok (.vlist vs) →
      ∃ f, (((WireProperty.value p).list_value).map WireValue.indexed).dedup = [f]
        ∧ (WireProperty.name p ∈ out.exclude ↔ f = false) := by
  obtain ⟨kpb, props⟩ := pb
  simp only [entity_from_protobuf] at h
  rcases (exceptBindOkIff _ _ _).1 h with ⟨pe, hpe, h2⟩
  injection h2 with h2
  subst h2
  simp only [WireEntity.property] at hnodup ⊢
  exact processProps_ok_spec props pe.1 pe.2 (by rw [hpe]) hnodup

/-- C2, corrected.  Decoding a wire entity fails with `InconsistentIndexing`
whenever SOME list-valued property's wire elements do not all carry the same
`indexed` flag — so an entity containing both an agreeing and a disagreeing
list still fails, which refutes the claim's per-property "exactly when".
Whenever decoding succeeds, every property whose value decoded to a list had
uniform flags, and — provided the entity's property names are distinct — the
property name is in `exclude_from_indexes` exactly when that uniform flag is
false.  The spec's concrete vectors hold: one-property entities with element
flags `[true, true]` / `[false, false]` decode successfully with the name
excluded exactly in the second case, and `[true, false]` fails. -/
theorem entity_from_protobuf_indexing :
    (∀ pb p vs, p ∈ WireEntity.property pb →
        _get_value_from_value_pb (WireProperty.value p) = .ok (.vlist vs) →
        ((((WireProperty.value p).list_value).map WireValue.indexed).dedup).length ≠ 1 →
        entity_from_protobuf pb = .error .inconsistentIndexing)
    ∧ (∀ pb out, entity_from_protobuf pb = .ok out →
        ((WireEntity.property pb).map WireProperty.name).Nodup →
        ∀ p ∈ WireEntity.property pb, ∀ vs,
          _get_value_from_value_pb (WireProperty.value p) = .ok (.vlist vs) →
          ∃ f, (((WireProperty.value p).list_value).map WireValue.indexed).dedup = [f]
            ∧ (WireProperty.name p ∈ out.exclude ↔ f = false))
    ∧ entity_from_protobuf entListTT
        = .ok ⟨some (key_from_protobuf emptyWireKey), [("p", .vlist [.vbool true, .vbool true])], []⟩
    ∧ entity_from_protobuf entListFF
        = .ok ⟨some (key_from_protobuf emptyWireKey), [("p", .vlist [.vbool true, .vbool false])], ["p"]⟩
    ∧ entity_from_protobuf entListTF = .error .inconsistentIndexing := by
  refine ⟨?_, ?_, ?_, ?_, ?_⟩
  · intro pb p vs hp hdec hbad
    exact entity_from_protobuf_fails pb p hp vs hdec hbad
  · intro pb out h hnodup
    exact entity_from_protobuf_ok_spec pb out h hnodup
  · simp [entity_from_protobuf, processProps, _get_value_from_value_pb, decodeListValues,
      indexedExclusionFor, entListTT, wvList, wvBoolIdx, WireValue.list_value,
      WireValue.indexed, List.dedup]
  · simp [entity_from_protobuf, processProps, _get_value_from_value_pb, decodeListValues,
      indexedExclusionFor, entListFF, wvList, wvBoolIdx, WireValue.list_value,
      WireValue.indexed, List.dedup]
  · simp [entity_from_protobuf, processProps, _get_value_from_value_pb, decodeListValues,
      indexedExclusionFor, entListTF, wvList, wvBoolIdx, WireValue.list_value,
      WireValue.indexed, List.dedup]

/-- C2, counterexample to the claim as stated: in `entMixed` the property
`propAgree` is list-valued and its elements all carry `indexed = true`, yet
decoding the entity fails with `InconsistentIndexing` (because of the other
property), so for this entity and this list-valued property "fails exactly
when the list's elements disagree" and "when the flags are uniform the
decode succeeds" are both false. -/
theorem entity_from_protobuf_indexing_cex :
    propAgree ∈ WireEntity.property entMixed
      ∧ _get_value_from_value_pb (WireProperty.value propAgree)
          = .ok (.vlist [.vbool true, .vbool true])
      ∧ (((WireProperty.value propAgree).list_value).map WireValue.indexed).dedup = [true]
      ∧ entity_from_protobuf entMixed = .error .inconsistentIndexing := by
  refine ⟨by simp [entMixed, WireEntity.property], ?_, ?_, ?_⟩
  · simp [propAgree, _get_value_from_value_pb, decodeListValues, wvList, wvBoolIdx,
      WireProperty.value]
  · simp [propAgree, WireProperty.value, wvList, wvBoolIdx, WireValue.list_value,
      WireValue.indexed, List.dedup]
  · simp [entMixed, propAgree, propDisagree, entity_from_protobuf, processProps,
      _get_value_from_value_pb, decodeListValues, indexedExclusionFor, wvList, wvBoolIdx,
      WireValue.list_value, WireValue.indexed, List.dedup, WireProperty.value,
      WireProperty.name, WireEntity.property]

/-- Witness for `entity_from_protobuf_indexing` at the concrete entity
`entListTF`. -/
theorem entity_from_protobuf_indexing_witness :
    WireProperty.mk "p" (wvList [wvBoolIdx true true, wvBoolIdx false false])
        ∈ WireEntity.property entListTF
      ∧ _get_value_from_value_pb
          (WireProperty.value (.mk "p" (wvList [wvBoolIdx true true, wvBoolIdx false false])))
          = .ok (.vlist [.vbool true, .vbool false])
      ∧ ((((WireProperty.value
            (.mk "p" (wvList [wvBoolIdx true true, wvBoolIdx false false]))).list_value).map
              WireValue.indexed).dedup).length ≠ 1
      ∧ entity_from_protobuf entListTF = .error .inconsistentIndexing := by
  have h1 : WireProperty.mk "p" (wvList [wvBoolIdx true true, wvBoolIdx false false])
      ∈ WireEntity.property entListTF := by
    simp [entListTF, WireEntity.property]
  have h2 : _get_value_from_value_pb
      (WireProperty.value (.mk "p" (wvList [wvBoolIdx true true, wvBoolIdx false false])))
      = .ok (.vlist [.vbool true, .vbool false]) := by
    simp [_get_value_from_value_pb, decodeListValues, wvList, wvBoolIdx, WireProperty.value]
  have h3 : ((((WireProperty.value
      (.mk "p" (wvList [wvBoolIdx true true, wvBoolIdx false false]))).list_value).map
        WireValue.indexed).dedup).length ≠ 1 := by
    simp [WireProperty.value, wvList, wvBoolIdx, WireValue.list_value, WireValue.indexed,
      List.dedup]
  exact ⟨h1, h2, h3, entity_from_protobuf_indexing.1 entListTF _ _ h1 h2 h3⟩

theorem withIndexed_indexed (x : WireValue) (b : Bool) :
    (x.withIndexed b).indexed = b := by
  cases x
  rfl

theorem setScalarAttr_list (a : AttrVal) : (setScalarAttr a).list_value = [] := by
  cases a <;> rfl

theorem set_protobuf_value_list_indexed (v : PyVal) (w : WireValue)
    (h : _set_protobuf_value v = .ok w) : ∀ x ∈ w.list_value, x.indexed = true := by
  cases v
  case vlist xs =>
    simp only [_set_protobuf_value] at h
    rcases (exceptBindOkIff _ _ _).1 h with ⟨ws, hws, h2⟩
    injection h2 with h2
    subst h2
    simpa [wvList, WireValue.list_value] using setListItems_indexed _ _ hws
  case vnull =>
    simp only [_set_protobuf_value] at h
    injection h with h
    subst h
    intro x hx
    simp [emptyWireValue, WireValue.list_value] at hx
  case vkey k =>
    simp only [_set_protobuf_value] at h
    injection h with h
    subst h
    intro x hx
    simp [wvKey, WireValue.list_value] at hx
  case ventity key props ex =>
    simp only [_set_protobuf_value] at h
    rcases (exceptBindOkIff _ _ _).1 h with ⟨ws, _, h2⟩
    injection h2 with h2
    subst h2
    intro x hx
    simp [wvEntity, WireValue.list_value] at hx
  all_goals
    simp only [_set_protobuf_value] at h
    rcases (exceptBindOkIff _ _ _).1 h with ⟨pair, _, h2⟩
    injection h2 with h2
    subst h2
    intro x hx
    rw [setScalarAttr_list] at hx
    simp at hx

theorem markUnindexed_list_elems (w : WireValue) (xs : List PyVal) :
    ∀ x ∈ (markUnindexed w (.vlist xs)).list_value, x.indexed = false := by
  obtain ⟨a, b, c, d, e, f, g, h, l, ix⟩ := w
  intro x hx
  simp only [markUnindexed, WireValue.list_value] at hx
  obtain ⟨y, _, rfl⟩ := List.mem_map.1 hx
  exact withIndexed_indexed y false

theorem markUnindexed_nonlist_indexed (w : WireValue) (v : PyVal)
    (hv : PyVal.isList v = false) : (markUnindexed w v).indexed = false := by
  cases v
  case vlist xs => simp [PyVal.isList] at hv
  all_goals simp [markUnindexed, withIndexed_indexed]

theorem encodeIndexedProps_spec (props : List (String × PyVal)) (excl : List String)
    (wps : List WireProperty) (h : encodeIndexedProps props excl = .ok wps) :
    wps.length = props.length
    ∧ ∀ q ∈ props.zip wps,
        WireProperty.name q.2 = q.1.1
        ∧ (PyVal.isList q.1.2 = true →
            ∀ x ∈ (WireProperty.value q.2).list_value,
              WireValue.indexed x = !(decide (q.1.1 ∈ excl)))
        ∧ (PyVal.isList q.1.2 = false →
            WireValue.indexed (WireProperty.value q.2) = !(decide (q.1.1 ∈ excl))) := by
  induction props generalizing wps with
  | nil =>
    simp only [encodeIndexedProps] at h
    injection h with h
    subst h
    simp
  | cons p rest ih =>
    obtain ⟨n, v⟩ := p
    simp only [encodeIndexedProps] at h
    rcases (exceptBindOkIff _ _ _).1 h with ⟨w, hw, h2⟩
    rcases (exceptBindOkIff _ _ _).1 h2 with ⟨ws, hws, h3⟩
    injection h3 with h3
    subst h3
    obtain ⟨ihlen, ihq⟩ := ih ws hws
    refine ⟨by simp [ihlen], ?_⟩
    intro q hq
    rw [List.zip_cons_cons] at hq
    rcases List.mem_cons.1 hq with rfl | hq'
    · refine ⟨rfl, ?_, ?_⟩
      · intro hvl x hx
        have hxs : ∃ xs, v = .vlist xs := by
          cases v <;> first
            | exact ⟨_, rfl⟩
            | (simp [PyVal.isList] at hvl)
        obtain ⟨xs, rfl⟩ := hxs
        by_cases hex : n ∈ excl
        · simp only [WireProperty.value, if_pos hex] at hx
          have := markUnindexed_list_elems w xs x hx
          simp [this, hex]
        · simp only [WireProperty.value, if_neg hex] at hx
          have := set_protobuf_value_list_indexed _ w hw x hx
          simp [this, hex]
      · intro hvnl
        by_cases hex : n ∈ excl
        · simp only [WireProperty.value, if_pos hex]
          rw [markUnindexed_nonlist_indexed w v hvnl]
          simp [hex]
        · simp only [WireProperty.value, if_neg hex]
          rw [set_protobuf_value_indexed v w hw]
          simp [hex]
    · exact ihq q hq'

/-- C1, corrected.  Decoding the wire value produced by encoding `v` yields
`v` again — timestamps compared at microsecond granularity (the decoded
timestamp is the UTC-zoned datetime carrying the same microsecond instant,
which is exactly `tsNormalize`; the second conjunct shows `tsNormalize`
preserves the microsecond instant) and byte strings byte-for-byte — for
every supported variant `v` that is good: integers inside the signed 64-bit
range, lists non-empty with non-list elements, nested entities carrying a
key, distinct property names and an empty `exclude_from_indexes` set.  The
empty list is the forced exception (see the counterexample): its wire
encoding is the empty wire value, which decodes to null. -/
theorem decode_encode_roundtrip :
    (∀ v, goodVal v = true → roundTrip v = .ok (tsNormalize v))
    ∧ (∀ t : PyDatetime,
        datetimeToMicros (microsToDatetime (datetimeToMicros t)) = datetimeToMicros t) := by
  refine ⟨roundTrip_good, ?_⟩
  have key : ∀ x : Int, datetimeToMicros ⟨x, some 0⟩ = x := by
    intro x
    simp only [datetimeToMicros]
    omega
  intro t
  exact key _

/-- C1, counterexample to the claim as stated: the empty list is a supported
list value, but it encodes to the empty wire value, which decodes to null,
not to an empty list. -/
theorem decode_encode_roundtrip_cex :
    _set_protobuf_value (.vlist []) = .ok emptyWireValue
      ∧ _get_value_from_value_pb emptyWireValue = .ok .vnull
      ∧ PyVal.vnull ≠ PyVal.vlist [] := by
  refine ⟨?_, ?_, ?_⟩
  · simp [_set_protobuf_value, setListItems, wvList, emptyWireValue]
  · simp [_get_value_from_value_pb, emptyWireValue]
  · intro h
    exact PyVal.noConfusion h

/-- Witness for `decode_encode_roundtrip` at `exampleGoodVal`. -/
theorem decode_encode_roundtrip_witness :
    goodVal exampleGoodVal = true
      ∧ roundTrip exampleGoodVal
          = .ok (.ventity (some examplePyKey)
              [("a", .vint 5), ("t", .vtimestamp ⟨1500000, some 0⟩),
               ("l", .vlist [.vbool true, .vnull])] []) := by
  have hg : goodVal exampleGoodVal = true := by
    simp [goodVal, goodProps, goodElems, exampleGoodVal, examplePyKey, PyVal.isList]
  have h := decode_encode_roundtrip.1 exampleGoodVal hg
  refine ⟨hg, ?_⟩
  rw [h]
  simp [tsNormalize, tsNormalizeProps, tsNormalizeList, exampleGoodVal, microsToDatetime,
    datetimeToMicros]

/-- C4, confirmed (spec-modelled: the top-level entity encoder lives in the
connection layer of the original repository and is not under src/; it is
modelled from the spec here).  For every encoded entity, the wire properties
pair up with the entity's mapping in order, and the `indexed` flag is false
on the encoded value — uniformly on every list element for a list value —
exactly when the property name is in `exclude_from_indexes`, and true
otherwise. -/
theorem entity_to_protobuf_indexed :
    ∀ e we, entity_to_protobuf e = .ok we →
      (WireEntity.property we).length = e.props.length
      ∧ ∀ q ∈ e.props.zip (WireEntity.property we),
          WireProperty.name q.2 = q.1.1
          ∧ (PyVal.isList q.1.2 = true →
              ∀ x ∈ (WireProperty.value q.2).list_value,
                WireValue.indexed x = !(decide (q.1.1 ∈ e.exclude)))
          ∧ (PyVal.isList q.1.2 = false →
              WireValue.indexed (WireProperty.value q.2) = !(decide (q.1.1 ∈ e.exclude))) := by
  intro e we h
  simp only [entity_to_protobuf] at h
  rcases (exceptBindOkIff _ _ _).1 h with ⟨wps, hwps, h2⟩
  injection h2 with h2
  subst h2
  exact encodeIndexedProps_spec e.props e.exclude wps hwps

/-- Witness for `entity_to_protobuf_indexed` at `exampleIndexEntity`. -/
theorem entity_to_protobuf_indexed_witness :
    entity_to_protobuf exampleIndexEntity
        = .ok (.mk (key_to_protobuf examplePyKey)
            [.mk "a" (wvInt 1), .mk "b" (wvList [wvBoolIdx true false, wvBoolIdx false false])])
      ∧ WireValue.indexed (wvBoolIdx true false)
          = !(decide (("b" : String) ∈ exampleIndexEntity.exclude))
      ∧ WireValue.indexed (wvInt 1)
          = !(decide (("a" : String) ∈ exampleIndexEntity.exclude)) := by
  have hr : (-(2 ^ 63) ≤ (1 : Int) ∧ (1 : Int) ≤ 2 ^ 63 - 1) := by norm_num
  have h : entity_to_protobuf exampleIndexEntity
      = .ok (.mk (key_to_protobuf examplePyKey)
          [.mk "a" (wvInt 1), .mk "b" (wvList [wvBoolIdx true false, wvBoolIdx false false])]) := by
    simp [entity_to_protobuf, encodeIndexedProps, _set_protobuf_value, _pb_attr_value, hr,
      setScalarAttr, setListItems, markUnindexed, exampleIndexEntity, wvInt, wvList, wvBool,
      wvBoolIdx, WireValue.withIndexed]
  have hspec := (entity_to_protobuf_indexed exampleIndexEntity _ h).2
  have hzip : exampleIndexEntity.props.zip (WireEntity.property
      (.mk (key_to_protobuf examplePyKey)
        [.mk "a" (wvInt 1), .mk "b" (wvList [wvBoolIdx true false, wvBoolIdx false false])]))
      = [(("a", PyVal.vint 1), WireProperty.mk "a" (wvInt 1)),
         (("b", PyVal.vlist [.vbool true, .vbool false]),
          WireProperty.mk "b" (wvList [wvBoolIdx true false, wvBoolIdx false false]))] := rfl
  have hqb := hspec (("b", PyVal.vlist [.vbool true, .vbool false]),
      WireProperty.mk "b" (wvList [wvBoolIdx true false, wvBoolIdx false false]))
    (by rw [hzip]; exact List.mem_cons_of_mem _ (List.mem_cons_self _ _))
  have hqa := hspec (("a", PyVal.vint 1), WireProperty.mk "a" (wvInt 1))
    (by rw [hzip]; exact List.mem_cons_self _ _)
  refine ⟨h, ?_, ?_⟩
  · exact hqb.2.1 rfl (wvBoolIdx true false)
      (by simp [wvList, WireValue.list_value, WireProperty.value])
  · exact hqa.2.2 rfl

/-- C5, confirmed: when no recognized tagged field of a wire value is
populated, decoding returns null rather than failing (the source has no
reachable malformed-value error: absence of every tag is permitted
everywhere and maps to `None`). -/
theorem decode_no_tag_null (w : WireValue) (h : noFieldSet w = true) :
    _get_value_from_value_pb w = .ok .vnull := by
  obtain ⟨ts, kv, bv, dv, iv, sv, blv, ev, lv, ix⟩ := w
  cases ts with
  | some us => simp [noFieldSet] at h
  | none =>
  cases kv with
  | some kpb => simp [noFieldSet] at h
  | none =>
  cases bv with
  | some b => simp [noFieldSet] at h
  | none =>
  cases dv with
  | some d => simp [noFieldSet] at h
  | none =>
  cases iv with
  | some i => simp [noFieldSet] at h
  | none =>
  cases sv with
  | some s => simp [noFieldSet] at h
  | none =>
  cases blv with
  | some bl => simp [noFieldSet] at h
  | none =>
  cases ev with
  | some epb => simp [noFieldSet] at h
  | none =>
  cases lv with
  | cons x xs => simp [noFieldSet] at h
  | nil => simp [_get_value_from_value_pb]

/-- Witness for `decode_no_tag_null` at the empty wire value. -/
theorem decode_no_tag_null_witness :
    noFieldSet emptyWireValue = true
      ∧ _get_value_from_value_pb emptyWireValue = .ok .vnull :=
  ⟨rfl, decode_no_tag_null emptyWireValue rfl⟩

/-- C6, confirmed: encoding an integer maps to the integer tag exactly when
it lies in the signed 64-bit range `-2^63 ≤ i < 2^63`, and fails with the
integer-overflow error otherwise. -/
theorem pb_attr_value_int_range (i : Int) :
    ((-(2 ^ 63) ≤ i ∧ i < 2 ^ 63) →
        _pb_attr_value (.vint i) = .ok ("integer_value", .aInt i))
    ∧ ((i < -(2 ^ 63) ∨ 2 ^ 63 ≤ i) →
        _pb_attr_value (.vint i) = .error .integerOverflow) := by
  have hp : ((2 : Int) ^ 63) = 9223372036854775808 := by norm_num
  constructor
  · intro hr
    simp only [_pb_attr_value]
    rw [if_pos ⟨hr.1, by omega⟩]
  · intro hr
    simp only [_pb_attr_value]
    rw [if_neg]
    rintro ⟨h1, h2⟩
    rcases hr with h | h <;> omega

/-- Witness for `pb_attr_value_int_range` at `2^63 - 1` and `2^63`. -/
theorem pb_attr_value_int_range_witness :
    (-(2 ^ 63) ≤ (2 ^ 63 - 1 : Int) ∧ (2 ^ 63 - 1 : Int) < 2 ^ 63)
      ∧ _pb_attr_value (.vint (2 ^ 63 - 1)) = .ok ("integer_value", .aInt (2 ^ 63 - 1))
      ∧ ((2 ^ 63 : Int) < -(2 ^ 63) ∨ (2 ^ 63 : Int) ≤ 2 ^ 63)
      ∧ _pb_attr_value (.vint (2 ^ 63)) = .error .integerOverflow := by
  have h1 : (-(2 ^ 63) ≤ (2 ^ 63 - 1 : Int) ∧ (2 ^ 63 - 1 : Int) < 2 ^ 63) := by norm_num
  have h2 : ((2 ^ 63 : Int) < -(2 ^ 63) ∨ (2 ^ 63 : Int) ≤ 2 ^ 63) := Or.inr le_rfl
  exact ⟨h1, (pb_attr_value_int_range _).1 h1, h2, (pb_attr_value_int_range _).2 h2⟩

/-- C7, confirmed: a naive timestamp encodes to exactly the same tagged
payload as the same wall clock explicitly zoned UTC — the tag
`timestamp_microseconds_value` carrying the wall clock's microseconds since
the epoch. -/
theorem pb_attr_value_naive_utc (wall : Int) :
    _pb_attr_value (.vtimestamp ⟨wall, none⟩)
        = _pb_attr_value (.vtimestamp ⟨wall, some 0⟩)
      ∧ _pb_attr_value (.vtimestamp ⟨wall, none⟩)
        = .ok ("timestamp_microseconds_value", .aTimestamp wall) := by
  have hn : datetimeToMicros ⟨wall, none⟩ = wall := by
    simp only [datetimeToMicros]
    omega
  have hu : datetimeToMicros ⟨wall, some 0⟩ = wall := by
    simp only [datetimeToMicros]
    omega
  constructor
  · simp [_pb_attr_value, hn, hu]
  · simp [_pb_attr_value, hn]

/-- C8, confirmed: when the wire key's partition carries a dataset id the
prepared key is a copy with only that field cleared (namespace and path
elements unchanged); when it carries none the input itself is returned. -/
theorem prepare_key_for_request_spec (k : WireKey) :
    (k.partition_id.dataset_id.isSome = true →
        _prepare_key_for_request k
          = { partition_id := { dataset_id := none,
                                namespace_ := k.partition_id.namespace_ },
              path_element := k.path_element })
    ∧ (k.partition_id.dataset_id = none → _prepare_key_for_request k = k) := by
  obtain ⟨⟨ds, ns⟩, pes⟩ := k
  constructor
  · intro h
    simp [_prepare_key_for_request, h]
  · intro h
    subst h
    simp [_prepare_key_for_request]

/-- Witness for `prepare_key_for_request_spec` at `exampleWireKey` (dataset
id present) and `exampleBareWireKey` (absent). -/
theorem prepare_key_for_request_spec_witness :
    exampleWireKey.partition_id.dataset_id.isSome = true
      ∧ _prepare_key_for_request exampleWireKey
          = { partition_id := { dataset_id := none, namespace_ := some "ns" },
              path_element := exampleWireKey.path_element }
      ∧ exampleBareWireKey.partition_id.dataset_id = none
      ∧ _prepare_key_for_request exampleBareWireKey = exampleBareWireKey :=
  ⟨rfl, (prepare_key_for_request_spec exampleWireKey).1 rfl, rfl,
    (prepare_key_for_request_spec exampleBareWireKey).2 rfl⟩

/-- C9, confirmed (spec-modelled for the `Key` constructor, which is not
under src/): when every wire path element carries at most one of numeric id
and name, the decoded key's dataset id and namespace are exactly the
optional partition fields (absent maps to none, a present value — even the
empty string — maps to itself), and the path is one `(kind, identifier)`
segment per element in order, the identifier being the numeric id if
present, else the name if present, else absent. -/
theorem key_from_protobuf_spec (pb : WireKey)
    (h : ∀ e ∈ pb.path_element, ¬(e.id.isSome ∧ e.name.isSome)) :
    key_from_protobuf pb
      = { path := pb.path_element.map segOfElementSpec,
          namespace_ := pb.partition_id.namespace_,
          dataset_id := pb.partition_id.dataset_id } := by
  simp only [key_from_protobuf]
  rw [segmentsOfFlatArgs_elements _ h]

/-- Witness for `key_from_protobuf_spec` at `exampleWireKey`. -/
theorem key_from_protobuf_spec_witness :
    (∀ e ∈ exampleWireKey.path_element, ¬(e.id.isSome ∧ e.name.isSome))
      ∧ key_from_protobuf exampleWireKey
        = { path := [⟨"Person", some (.intId 123)⟩, ⟨"Address", some (.strName "home")⟩],
            namespace_ := some "ns", dataset_id := some "s~foo" } := by
  have h : ∀ e ∈ exampleWireKey.path_element, ¬(e.id.isSome ∧ e.name.isSome) := by decide
  refine ⟨h, ?_⟩
  rw [key_from_protobuf_spec _ h]
  rfl

/-- C10, confirmed: a wire value whose `list_value` field holds zero elements
(and no other tag — a proto2 repeated field has no separate presence bit)
decodes to null, because the list branch is selected by element-count
truthiness; consequently no decoded list value is ever empty. -/
theorem decode_list_truthiness :
    (∀ ix, _get_value_from_value_pb (.mk none none none none none none none none [] ix)
        = .ok .vnull)
    ∧ (∀ w vs, _get_value_from_value_pb w = .ok (.vlist vs) → vs ≠ []) := by
  constructor
  · intro ix
    simp [_get_value_from_value_pb]
  · intro w vs h
    obtain ⟨ts, kv, bv, dv, iv, sv, blv, ev, lv, ix⟩ := w
    cases ts with
    | some us => simp [_get_value_from_value_pb] at h
    | none =>
    cases kv with
    | some kpb => simp [_get_value_from_value_pb] at h
    | none =>
    cases bv with
    | some b => simp [_get_value_from_value_pb] at h
    | none =>
    cases dv with
    | some d => simp [_get_value_from_value_pb] at h
    | none =>
    cases iv with
    | some i => simp [_get_value_from_value_pb] at h
    | none =>
    cases sv with
    | some s => simp [_get_value_from_value_pb] at h
    | none =>
    cases blv with
    | some bl => simp [_get_value_from_value_pb] at h
    | none =>
    cases ev with
    | some epb =>
      simp only [_get_value_from_value_pb] at h
      rcases (exceptBindOkIff _ _ _).1 h with ⟨e, _, h2⟩
      simp at h2
    | none =>
    cases lv with
    | nil => simp [_get_value_from_value_pb] at h
    | cons x xs =>
      simp only [_get_value_from_value_pb] at h
      rcases (exceptBindOkIff _ _ _).1 h with ⟨us, hus, h2⟩
      have hne : us ≠ [] := by
        simp only [decodeListValues] at hus
        rcases (exceptBindOkIff _ _ _).1 hus with ⟨v1, _, h3⟩
        rcases (exceptBindOkIff _ _ _).1 h3 with ⟨vrest, _, h4⟩
        injection h4 with h4
        rw [← h4]
        simp
      injection h2 with h2
      injection h2 with h2
      rw [← h2]
      exact hne

/-- Witness for `decode_list_truthiness` at the empty-list wire value and a
one-element list. -/
theorem decode_list_truthiness_witness :
    _get_value_from_value_pb (.mk none none none none none none none none [] true)
        = .ok .vnull
      ∧ _get_value_from_value_pb (wvList [wvBool true]) = .ok (.vlist [.vbool true])
      ∧ ([PyVal.vbool true] : List PyVal) ≠ [] := by
  have h2 : _get_value_from_value_pb (wvList [wvBool true]) = .ok (.vlist [.vbool true]) := by
    simp [_get_value_from_value_pb, decodeListValues, wvList, wvBool]
  exact ⟨decode_list_truthiness.1 true, h2, decode_list_truthiness.2 _ _ h2⟩
